import Mathlib

/-!
# Verification of `recon-core` (MART reconstruction)

Shallow embedding of `src/rust-services/recon-core/src/lib.rs`.

Modelling conventions:

* `f32` values are modelled exactly: a value is either `NaN` or an exact
  rational.  Rounding and overflow are not modelled (arithmetic is exact),
  and IEEE infinities are outside the model — no claim mentions them, and
  in the code the only operation that could produce one from finite
  operands (`projections[i] / y_hat` with `y_hat = 0`) is unreachable
  because of the `y_hat <= 0.0` guard; the model maps it to `nan`
  ("non-finite") instead.
* IEEE comparisons involving `NaN` are false, which is what the Rust
  operators `<=` and `>` on `f32` produce; `F.ble` / `F.blt` mirror this.
* `f32::powf` is an external library call whose results are in general
  irrational, so the embedded functions take the power function `powf` as
  an explicit parameter.  Theorems that depend on particular values of
  `powf` assume only IEEE-mandated identities (`pow x 0 = 1`,
  `pow NaN y = NaN` for `y ≠ 0`, integer-exponent powers); `powfSpec`
  below is a concrete instance, exact on those cases, used by witnesses.
* A Rust `assert_eq!` failure (panic) is modelled as an `Except` error;
  `ReconError` has one constructor per `assert_eq!` in `mart_step`.
* `ndarray::Array1<f32>` is a `List F`; `ndarray::Array2<f32>` is a
  `Matrix2`: a column count together with the list of rows (the column
  count must be kept even when there are zero rows, as in `ndarray`);
  well-formedness (`WF`: every row has length `ncols`) is a `Prop` carried
  as a hypothesis where needed, since `ndarray` guarantees it by
  construction.
-/

/-- A modelled `f32` value: `NaN`, or an exact rational. -/
inductive F where
  | nan : F
  | fin : ℚ → F
deriving DecidableEq, Repr

/-- IEEE addition on the model: `NaN` propagates, finite values add exactly. -/
def F.add : F → F → F
  | F.fin a, F.fin b => F.fin (a + b)
  | _, _ => F.nan

/-- IEEE multiplication on the model: `NaN` propagates, finite values
multiply exactly. -/
def F.mul : F → F → F
  | F.fin a, F.fin b => F.fin (a * b)
  | _, _ => F.nan

/-- IEEE division on the model: `NaN` propagates; a zero divisor gives a
non-finite result (`±∞` in IEEE, outside this model, mapped to `nan`;
unreachable in the embedded code because of the `y_hat <= 0.0` guard). -/
def F.div : F → F → F
  | F.fin a, F.fin b => if b = 0 then F.nan else F.fin (a / b)
  | _, _ => F.nan

/-- The Rust `<=` on `f32`: false whenever an operand is `NaN`. -/
def F.ble : F → F → Bool
  | F.fin a, F.fin b => decide (a ≤ b)
  | _, _ => false

/-- The Rust `<` on `f32` (used as `a_ij > 0.0`, i.e. `0 < a_ij`):
false whenever an operand is `NaN`. -/
def F.blt : F → F → Bool
  | F.fin a, F.fin b => decide (a < b)
  | _, _ => false

/-- An `ndarray::Array2<f32>`: the column count together with the rows.
`ncols` is part of the data because `ndarray` keeps the shape even when
there are zero rows. -/
structure Matrix2 where
  ncols : Nat
  rows : List (List F)
deriving DecidableEq, Repr

/-- Well-formedness of a `Matrix2`: every row has length `ncols`.
`ndarray` guarantees this by construction. -/
def Matrix2.WF (A : Matrix2) : Prop :=
  ∀ r ∈ A.rows, r.length = A.ncols

instance (A : Matrix2) : Decidable A.WF :=
  List.decidableBAll _ A.rows

/-- The panics of `mart_step`, one per `assert_eq!`:
`projLenMismatch` for `assert_eq!(projections.len(), m)` and
`volLenMismatch` for `assert_eq!(volume.len(), n)`. -/
inductive ReconError where
  | projLenMismatch : ReconError
  | volLenMismatch : ReconError
deriving DecidableEq, Repr

/-- The inner accumulation `y_hat += row[j] * volume[j]` over `j = 0..n`,
starting from `0.0f32` (a left fold in index order). -/
def dotF (row vol : List F) : F :=
  (List.zipWith F.mul row vol).foldl F.add (F.fin 0)

/-- The body of the `for i in 0..m` loop of `mart_step` for one ray:
compute `y_hat`; if `y_hat <= 0.0` skip (`continue`); otherwise compute
`ratio = projections[i] / y_hat`, `factor = ratio.powf(relaxation)`, and
multiply every voxel `j` with `row[j] > 0.0` by `factor` in place. -/
def mart_ray (powf : F → F → F) (yi : F) (row : List F) (lam : F)
    (vol : List F) : List F :=
  let y_hat := dotF row vol
  if F.ble y_hat (F.fin 0) then vol
  else
    let ratio := F.div yi y_hat
    let factor := powf ratio lam
    List.zipWith (fun a x => if F.blt (F.fin 0) a then F.mul x factor else x)
      row vol

/-- `mart_step`: asserts `projections.len() == m` and `volume.len() == n`
(in that order; a failing assert panics, modelled as `Except.error`), then
performs the single pass over all rays in index order `i = 0..m`, each ray
reading the volume as already updated by the previous rays of the pass. -/
def mart_step (powf : F → F → F) (projections : List F) (system_matrix : Matrix2)
    (volume : List F) (relaxation : F) : Except ReconError (List F) :=
  let m := system_matrix.rows.length
  let n := system_matrix.ncols
  if projections.length ≠ m then .error .projLenMismatch
  else if volume.length ≠ n then .error .volLenMismatch
  else .ok ((List.zip projections system_matrix.rows).foldl
      (fun vol pr => mart_ray powf pr.1 pr.2 relaxation vol) volume)

/-- The `for _ in 0..n_iters` loop of `mart_reconstruct`: iterate
`mart_step`, propagating a panic of any pass. -/
def mart_iter (powf : F → F → F) (projections : List F)
    (system_matrix : Matrix2) (relaxation : F) :
    Nat → List F → Except ReconError (List F)
  | 0, vol => .ok vol
  | k + 1, vol =>
    match mart_step powf projections system_matrix vol relaxation with
    | .error e => .error e
    | .ok vol2 => mart_iter powf projections system_matrix relaxation k vol2

/-- `mart_reconstruct`: initialize the volume to all ones of length
`n = system_matrix.dim().1` and run `n_iters` passes of `mart_step`. -/
def mart_reconstruct (powf : F → F → F) (projections : List F)
    (system_matrix : Matrix2) (n_iters : Nat) (relaxation : F) :
    Except ReconError (List F) :=
  mart_iter powf projections system_matrix relaxation n_iters
    (List.replicate system_matrix.ncols (F.fin 1))

/-- A concrete instance of `f32::powf` on the model, exact on the cases any
witness evaluates: IEEE `pow x 0 = 1` (for every `x`, `NaN` included),
`pow 1 y = 1`, `NaN` propagation otherwise, and exact integer-exponent
powers.  For a non-integer exponent the true result is in general
irrational and not representable in the exact model (returned as `nan`
here); no theorem depends on that branch — theorems quantify over `powf`
and assume only the IEEE identities listed above. -/
def powfSpec (b e : F) : F :=
  if e = F.fin 0 then F.fin 1
  else if b = F.fin 1 then F.fin 1
  else
    match b, e with
    | F.fin bq, F.fin eq =>
      if eq.den = 1 then
        if bq = 0 ∧ eq.num < 0 then F.nan
        else F.fin (bq ^ eq.num)
      else F.nan
    | _, _ => F.nan

/-! ## Evaluation lemmas for the modelled `f32` operations -/

@[simp] theorem F.add_fin (a b : ℚ) : F.add (F.fin a) (F.fin b) = F.fin (a + b) := rfl

@[simp] theorem F.add_nan_left (x : F) : F.add F.nan x = F.nan := by cases x <;> rfl

@[simp] theorem F.add_nan_right (x : F) : F.add x F.nan = F.nan := by cases x <;> rfl

@[simp] theorem F.mul_fin (a b : ℚ) : F.mul (F.fin a) (F.fin b) = F.fin (a * b) := rfl

@[simp] theorem F.mul_nan_left (x : F) : F.mul F.nan x = F.nan := by cases x <;> rfl

@[simp] theorem F.mul_nan_right (x : F) : F.mul x F.nan = F.nan := by cases x <;> rfl

@[simp] theorem F.div_fin (a b : ℚ) :
    F.div (F.fin a) (F.fin b) = if b = 0 then F.nan else F.fin (a / b) := rfl

@[simp] theorem F.div_nan_right (x : F) : F.div x F.nan = F.nan := by cases x <;> rfl

@[simp] theorem F.ble_fin (a b : ℚ) : F.ble (F.fin a) (F.fin b) = decide (a ≤ b) := rfl

@[simp] theorem F.ble_nan_left (x : F) : F.ble F.nan x = false := by cases x <;> rfl

@[simp] theorem F.blt_fin (a b : ℚ) : F.blt (F.fin a) (F.fin b) = decide (a < b) := rfl

@[simp] theorem F.blt_fin_nan (a : ℚ) : F.blt (F.fin a) F.nan = false := rfl

/-- IEEE `pow x 0 = 1` holds for the concrete power model, `NaN` base
included (as it does for `f32::powf`). -/
theorem powfSpec_exp_zero (b : F) : powfSpec b (F.fin 0) = F.fin 1 := by
  simp [powfSpec]

/-- IEEE `pow x 1 = x` on finite values holds for the concrete power model
(as it does for `f32::powf`). -/
theorem powfSpec_exp_one (q : ℚ) : powfSpec (F.fin q) (F.fin 1) = F.fin q := by
  by_cases h : q = 1 <;> simp [powfSpec, h]

/-- IEEE `pow NaN e = NaN` for every `e ≠ 0` holds for the concrete power
model (as it does for `f32::powf`). -/
theorem powfSpec_nan_base (e : F) (he : e ≠ F.fin 0) : powfSpec F.nan e = F.nan := by
  cases e with
  | nan => simp [powfSpec]
  | fin q =>
    have hq : ¬ (F.fin q = F.fin 0) := he
    simp [powfSpec, hq]

/-! ## Reference (spec-worded) definitions

These follow §4.1 of the design document literally — indexed access,
`i` from `0` to `M−1`, `j` ranging over the `N` voxels — to be compared
with the source-derived `mart_step` / `mart_reconstruct` above, and to
state the Gauss-Seidel / Jacobi distinction. -/

/-- Spec §4.1: the predicted measurement `ŷ = Σ_j A[i][j] · x[j]`, the sum
taken over the voxel indices `j = 0 .. N−1`. -/
def specDot (n : Nat) (row x : List F) : F :=
  (List.range n).foldl
    (fun acc j => F.add acc (F.mul (row.getD j F.nan) (x.getD j F.nan))) (F.fin 0)

/-- Spec §4.1, single-ray update for ray `i`: compute `ŷ` from the current
volume; if `ŷ ≤ 0` skip; otherwise `factor = (y[i]/ŷ)^λ` and every voxel
`j` with `A[i][j] > 0` is multiplied by `factor`, the rest left as they
are. -/
def specRay (powf : F → F → F) (y : List F) (A : Matrix2) (lam : F)
    (i : Nat) (x : List F) : List F :=
  let row := A.rows.getD i []
  let yhat := specDot A.ncols row x
  if F.ble yhat (F.fin 0) then x
  else
    let factor := powf (F.div (y.getD i F.nan) yhat) lam
    (List.range A.ncols).map fun j =>
      if F.blt (F.fin 0) (row.getD j F.nan)
      then F.mul (x.getD j F.nan) factor else x.getD j F.nan

/-- Spec §4.1, one pass: apply the single-ray update for `i` from `0` to
`M−1` in that fixed order, each ray reading the state left by the previous
ray of the same pass (Gauss-Seidel-style). -/
def specPass (powf : F → F → F) (y : List F) (A : Matrix2) (lam : F)
    (x : List F) : List F :=
  (List.range A.rows.length).foldl (fun x i => specRay powf y A lam i x) x

/-- The batched (Jacobi-style) variant the spec contrasts §4.1 with: every
ray's `ŷ` and `factor` are computed from the frozen snapshot of the volume
taken at the start of the pass, not from the updated state. -/
def jacobiPass (powf : F → F → F) (y : List F) (A : Matrix2) (lam : F)
    (x : List F) : List F :=
  (List.range A.rows.length).foldl
    (fun xcur i =>
      let row := A.rows.getD i []
      let yhat := specDot A.ncols row x
      if F.ble yhat (F.fin 0) then xcur
      else
        let factor := powf (F.div (y.getD i F.nan) yhat) lam
        (List.range A.ncols).map fun j =>
          if F.blt (F.fin 0) (row.getD j F.nan)
          then F.mul (xcur.getD j F.nan) factor else xcur.getD j F.nan) x

/-! ## List index bookkeeping -/

theorem foldl_range_succ {α : Type} (h : α → Nat → α) (acc : α) (n : Nat) :
    (List.range (n + 1)).foldl h acc
      = (List.range n).foldl (fun a j => h a (j + 1)) (h acc 0) := by
  rw [List.range_succ_eq_map, List.foldl_cons, List.foldl_map]

theorem map_range_succ {α : Type} (h : Nat → α) (n : Nat) :
    (List.range (n + 1)).map h = h 0 :: (List.range n).map (fun j => h (j + 1)) := by
  rw [List.range_succ_eq_map, List.map_cons, List.map_map]
  rfl

theorem specDot_go (row : List F) : ∀ (x : List F) (n : Nat), row.length = n →
    x.length = n → ∀ acc : F,
    (List.range n).foldl
        (fun a j => F.add a (F.mul (row.getD j F.nan) (x.getD j F.nan))) acc
      = (List.zipWith F.mul row x).foldl F.add acc := by
  induction row with
  | nil =>
    intro x n hr hx acc
    subst hr
    simp
  | cons r rt ih =>
    intro x n hr hx acc
    cases x with
    | nil => subst hx; exact absurd hr (by simp)
    | cons a xt =>
      cases n with
      | zero => exact absurd hr (by simp)
      | succ m =>
        rw [foldl_range_succ]
        simp only [List.getD_cons_succ, List.getD_cons_zero]
        rw [List.zipWith_cons_cons, List.foldl_cons]
        exact ih xt m (by simpa using hr) (by simpa using hx) _

/-- The spec's indexed sum `Σ_j A[i][j]·x[j]` agrees with the source's
accumulation over `j = 0..n` when the row and the volume both have length
`n`. -/
theorem specDot_eq_dotF (row x : List F) (n : Nat) (hr : row.length = n)
    (hx : x.length = n) : specDot n row x = dotF row x :=
  specDot_go row x n hr hx (F.fin 0)

theorem specUpdate_eq_zipWith (row : List F) : ∀ (x : List F) (n : Nat),
    row.length = n → x.length = n → ∀ f : F,
    (List.range n).map
        (fun j => if F.blt (F.fin 0) (row.getD j F.nan)
          then F.mul (x.getD j F.nan) f else x.getD j F.nan)
      = List.zipWith (fun a b => if F.blt (F.fin 0) a then F.mul b f else b)
          row x := by
  induction row with
  | nil =>
    intro x n hr hx f
    subst hr
    simp
  | cons r rt ih =>
    intro x n hr hx f
    cases x with
    | nil => subst hx; exact absurd hr (by simp)
    | cons a xt =>
      cases n with
      | zero => exact absurd hr (by simp)
      | succ m =>
        rw [map_range_succ]
        simp only [List.getD_cons_succ, List.getD_cons_zero]
        rw [List.zipWith_cons_cons]
        rw [ih xt m (by simpa using hr) (by simpa using hx) f]

/-- A single-ray update never changes the volume's length (when the row is
at least as long as the volume, as the dimension asserts guarantee). -/
theorem mart_ray_length (powf : F → F → F) (yi : F) (row : List F) (lam : F)
    (vol : List F) (hle : vol.length ≤ row.length) :
    (mart_ray powf yi row lam vol).length = vol.length := by
  unfold mart_ray
  by_cases h : F.ble (dotF row vol) (F.fin 0) = true
  · simp [h]
  · simp only [Bool.not_eq_true] at h
    simp [h, List.length_zipWith, Nat.min_eq_right hle]

/-- Spec ray `0` of a nonempty system is exactly the source's single-ray
update with the head measurement and head row. -/
theorem specRay_zero (powf : F → F → F) (yh : F) (yt : List F) (r : List F)
    (rt : List (List F)) (n : Nat) (lam : F) (x : List F)
    (hr : r.length = n) (hx : x.length = n) :
    specRay powf (yh :: yt) ⟨n, r :: rt⟩ lam 0 x = mart_ray powf yh r lam x := by
  unfold specRay mart_ray
  simp only [List.getD_cons_zero]
  rw [specDot_eq_dotF r x n hr hx]
  by_cases h : F.ble (dotF r x) (F.fin 0) = true
  · simp [h]
  · simp only [Bool.not_eq_true] at h
    simp only [h]
    rw [specUpdate_eq_zipWith r x n hr hx]

/-- Shifting the ray index by one drops the head measurement and head row. -/
theorem specRay_succ (powf : F → F → F) (yh : F) (yt : List F) (r : List F)
    (rt : List (List F)) (n : Nat) (lam : F) (i : Nat) (x : List F) :
    specRay powf (yh :: yt) ⟨n, r :: rt⟩ lam (i + 1) x
      = specRay powf yt ⟨n, rt⟩ lam i x := by
  unfold specRay
  simp only [List.getD_cons_succ]

theorem mart_fold_length (powf : F → F → F) (lam : F) (n : Nat) :
    ∀ (p : List F) (rows : List (List F)) (x : List F),
    (∀ r ∈ rows, r.length = n) → x.length = n →
    ((List.zip p rows).foldl (fun v pr => mart_ray powf pr.1 pr.2 lam v) x).length
      = n := by
  intro p
  induction p with
  | nil => intro rows x _ hx; simpa using hx
  | cons yh yt ih =>
    intro rows x hwf hx
    cases rows with
    | nil => simpa using hx
    | cons r rt =>
      rw [List.zip_cons_cons, List.foldl_cons]
      refine ih rt (mart_ray powf yh r lam x) (fun s hs => hwf s (List.mem_cons_of_mem _ hs)) ?_
      rw [mart_ray_length]
      · exact hx
      · rw [hx, hwf r (List.mem_cons_self _ _)]

theorem specPass_go (powf : F → F → F) (lam : F) (n : Nat) :
    ∀ (p : List F) (rows : List (List F)) (x : List F),
    p.length = rows.length → (∀ r ∈ rows, r.length = n) → x.length = n →
    (List.range rows.length).foldl
        (fun x i => specRay powf p ⟨n, rows⟩ lam i x) x
      = (List.zip p rows).foldl (fun v pr => mart_ray powf pr.1 pr.2 lam v) x := by
  intro p
  induction p with
  | nil =>
    intro rows x hp _ _
    have : rows = [] := List.length_eq_zero.mp hp.symm
    subst this
    simp
  | cons yh yt ih =>
    intro rows x hp hwf hx
    cases rows with
    | nil => exact absurd hp (by simp)
    | cons r rt =>
      rw [List.zip_cons_cons, List.foldl_cons, List.length_cons, foldl_range_succ]
      simp only [specRay_succ]
      have hr : r.length = n := hwf r (List.mem_cons_self _ _)
      rw [specRay_zero powf yh yt r rt n lam x hr hx]
      exact ih rt (mart_ray powf yh r lam x)
        (by simpa using hp)
        (fun s hs => hwf s (List.mem_cons_of_mem _ hs))
        (by rw [mart_ray_length powf yh r lam x (by rw [hx, hr])]; exact hx)

/-- One spec pass (indexed Gauss-Seidel sweep) equals the source's fold of
`mart_ray` over the zipped measurements and rows. -/
theorem specPass_eq (powf : F → F → F) (y : List F) (A : Matrix2) (lam : F)
    (x : List F) (hy : y.length = A.rows.length) (hwf : A.WF)
    (hx : x.length = A.ncols) :
    specPass powf y A lam x
      = (List.zip y A.rows).foldl (fun v pr => mart_ray powf pr.1 pr.2 lam v) x := by
  unfold specPass
  exact specPass_go powf lam A.ncols y A.rows x hy hwf hx

/-- Under matching dimensions, `mart_step` passes both asserts and returns
the sequential pass over all rays. -/
theorem mart_step_ok (powf : F → F → F) (p : List F) (A : Matrix2)
    (vol : List F) (lam : F) (hp : p.length = A.rows.length)
    (hv : vol.length = A.ncols) :
    mart_step powf p A vol lam
      = .ok ((List.zip p A.rows).foldl
          (fun v pr => mart_ray powf pr.1 pr.2 lam v) vol) := by
  unfold mart_step
  simp [hp, hv]

theorem mart_iter_eq_specPass_iterate (powf : F → F → F) (p : List F)
    (A : Matrix2) (lam : F) (hp : p.length = A.rows.length) (hwf : A.WF) :
    ∀ (k : Nat) (vol : List F), vol.length = A.ncols →
    mart_iter powf p A lam k vol = .ok ((specPass powf p A lam)^[k] vol) := by
  intro k
  induction k with
  | zero => intro vol _; rfl
  | succ m ih =>
    intro vol hv
    rw [Function.iterate_succ_apply]
    unfold mart_iter
    rw [mart_step_ok powf p A vol lam hp hv]
    rw [specPass_eq powf p A lam vol hp hwf hv]
    exact ih _ (mart_fold_length powf lam A.ncols p A.rows vol hwf hv)

theorem getD_zipWith (f : F → F → F) :
    ∀ (l1 l2 : List F) (j : Nat), j < l1.length → j < l2.length →
    (List.zipWith f l1 l2).getD j F.nan
      = f (l1.getD j F.nan) (l2.getD j F.nan) := by
  intro l1
  induction l1 with
  | nil => intro l2 j h1 _; exact absurd h1 (by simp)
  | cons a t ih =>
    intro l2 j h1 h2
    cases l2 with
    | nil => exact absurd h2 (by simp)
    | cons b t2 =>
      cases j with
      | zero => rfl
      | succ m =>
        simp only [List.zipWith_cons_cons, List.getD_cons_succ]
        exact ih t2 m (by simpa using h1) (by simpa using h2)

/-- The value of voxel `j` after one non-skipped single-ray update: voxels
the ray passes through (`row[j] > 0`) are multiplied by the common factor
`(y_i / ŷ)^λ`, the rest keep their value. -/
theorem mart_ray_getD (powf : F → F → F) (yi : F) (row : List F) (lam : F)
    (vol : List F) (hlen : row.length = vol.length)
    (hpos : F.ble (dotF row vol) (F.fin 0) = false)
    (j : Nat) (hj : j < vol.length) :
    (mart_ray powf yi row lam vol).getD j F.nan
      = if F.blt (F.fin 0) (row.getD j F.nan)
        then F.mul (vol.getD j F.nan) (powf (F.div yi (dotF row vol)) lam)
        else vol.getD j F.nan := by
  unfold mart_ray
  simp only [hpos, Bool.false_eq_true, if_false]
  exact getD_zipWith _ row vol j (hlen ▸ hj) hj

/-! ## Invariance of the all-ones volume when the factor is `1` -/

theorem zipWith_update_one (row : List F) : ∀ n : Nat, row.length = n →
    List.zipWith (fun a x => if F.blt (F.fin 0) a then F.mul x (F.fin 1) else x)
        row (List.replicate n (F.fin 1))
      = List.replicate n (F.fin 1) := by
  induction row with
  | nil => intro n h; subst h; simp
  | cons r rt ih =>
    intro n h
    cases n with
    | zero => exact absurd h (by simp)
    | succ m =>
      rw [List.replicate_succ, List.zipWith_cons_cons, ih m (by simpa using h)]
      by_cases hr : F.blt (F.fin 0) r = true
      · simp [hr]
      · simp only [Bool.not_eq_true] at hr
        simp [hr]

theorem mart_ray_ones (powf : F → F → F) (yi : F) (row : List F) (n : Nat)
    (hr : row.length = n) (hpow : ∀ x, powf x (F.fin 0) = F.fin 1) :
    mart_ray powf yi row (F.fin 0) (List.replicate n (F.fin 1))
      = List.replicate n (F.fin 1) := by
  unfold mart_ray
  by_cases h : F.ble (dotF row (List.replicate n (F.fin 1))) (F.fin 0) = true
  · simp [h]
  · simp only [Bool.not_eq_true] at h
    simp only [h, Bool.false_eq_true, if_false, hpow]
    exact zipWith_update_one row n hr

theorem mart_fold_ones (powf : F → F → F) (n : Nat)
    (hpow : ∀ x, powf x (F.fin 0) = F.fin 1) :
    ∀ (p : List F) (rows : List (List F)), (∀ r ∈ rows, r.length = n) →
    (List.zip p rows).foldl (fun v pr => mart_ray powf pr.1 pr.2 (F.fin 0) v)
        (List.replicate n (F.fin 1))
      = List.replicate n (F.fin 1) := by
  intro p
  induction p with
  | nil => intro rows _; simp
  | cons yh yt ih =>
    intro rows hwf
    cases rows with
    | nil => simp
    | cons r rt =>
      rw [List.zip_cons_cons, List.foldl_cons,
        mart_ray_ones powf yh r n (hwf r (List.mem_cons_self _ _)) hpow]
      exact ih rt (fun s hs => hwf s (List.mem_cons_of_mem _ hs))

/-! ## Claims -/

/-- C1 counterexample: with `n_iters = 0` a dimension mismatch (`y` of
length 1 against a 2-row matrix) is NOT rejected — `mart_reconstruct`
returns the all-ones volume instead of failing, because the asserts live in
`mart_step`, which never runs. -/
theorem C1_mismatch_zero_iters_returns_ok :
    mart_reconstruct powfSpec [F.fin 1] ⟨1, [[F.fin 1], [F.fin 1]]⟩ 0 (F.fin 1)
      = .ok [F.fin 1] := by
  simp [mart_reconstruct, mart_iter]

/-- C1 (amended): for every `n_iters ≥ 1`, a row count different from the
measurement length makes `mart_reconstruct` fail with the
dimension-mismatch panic of the first pass, before producing any output;
with `n_iters = 0` the check never executes. -/
theorem mart_reconstruct_dim_mismatch (powf : F → F → F) (p : List F)
    (A : Matrix2) (n : Nat) (lam : F) (hp : p.length ≠ A.rows.length)
    (hn : 0 < n) :
    mart_reconstruct powf p A n lam = .error .projLenMismatch := by
  cases n with
  | zero => exact absurd hn (by simp)
  | succ k =>
    unfold mart_reconstruct mart_iter mart_step
    simp [hp]

/-- C1 witness: concrete mismatched input with `n_iters = 1`. -/
theorem mart_reconstruct_dim_mismatch_witness :
    mart_reconstruct powfSpec [F.fin 1] ⟨1, [[F.fin 1], [F.fin 2]]⟩ 1 (F.fin 1)
      = .error .projLenMismatch :=
  mart_reconstruct_dim_mismatch powfSpec [F.fin 1] ⟨1, [[F.fin 1], [F.fin 2]]⟩ 1
    (F.fin 1) (by decide) (by decide)

/-- C2: under matching dimensions, `mart_reconstruct` initializes the
volume to all ones of length `N = ncols` and performs exactly `n_iters`
sequential Gauss-Seidel passes (`specPass`, rays in index order, each ray
reading the state left by the previous rays of the same pass); moreover the
batched Jacobi-style pass is a different algorithm: on `y = [4, 2]`,
`A = [[1], [1]]`, `λ = 1`, one sequential pass gives `[2]` while the
batched pass gives `[8]`. -/
theorem mart_reconstruct_is_sequential_gauss_seidel (powf : F → F → F)
    (p : List F) (A : Matrix2) (n : Nat) (lam : F)
    (hp : p.length = A.rows.length) (hwf : A.WF) :
    mart_reconstruct powf p A n lam
        = .ok ((specPass powf p A lam)^[n] (List.replicate A.ncols (F.fin 1)))
      ∧ specPass powfSpec [F.fin 4, F.fin 2] ⟨1, [[F.fin 1], [F.fin 1]]⟩
          (F.fin 1) (List.replicate 1 (F.fin 1)) = [F.fin 2]
      ∧ jacobiPass powfSpec [F.fin 4, F.fin 2] ⟨1, [[F.fin 1], [F.fin 1]]⟩
          (F.fin 1) (List.replicate 1 (F.fin 1)) = [F.fin 8] := by
  refine ⟨?_, ?_, ?_⟩
  · exact mart_iter_eq_specPass_iterate powf p A lam hp hwf n
      (List.replicate A.ncols (F.fin 1)) (List.length_replicate _ _)
  · simp [specPass, specRay, specDot, powfSpec, List.range_succ]
    norm_num
  · simp [jacobiPass, specDot, powfSpec, List.range_succ]
    norm_num

/-- C2 witness: the Gauss-Seidel refinement applied at `M=1, N=2`,
`A=[[1,1]]`, `y=[4]`, one pass. -/
theorem mart_reconstruct_is_sequential_gauss_seidel_witness :
    mart_reconstruct powfSpec [F.fin 4] ⟨2, [[F.fin 1, F.fin 1]]⟩ 1 (F.fin 1)
        = .ok ((specPass powfSpec [F.fin 4] ⟨2, [[F.fin 1, F.fin 1]]⟩
            (F.fin 1))^[1] (List.replicate 2 (F.fin 1)))
      ∧ specPass powfSpec [F.fin 4, F.fin 2] ⟨1, [[F.fin 1], [F.fin 1]]⟩
          (F.fin 1) (List.replicate 1 (F.fin 1)) = [F.fin 2]
      ∧ jacobiPass powfSpec [F.fin 4, F.fin 2] ⟨1, [[F.fin 1], [F.fin 1]]⟩
          (F.fin 1) (List.replicate 1 (F.fin 1)) = [F.fin 8] :=
  mart_reconstruct_is_sequential_gauss_seidel powfSpec [F.fin 4]
    ⟨2, [[F.fin 1, F.fin 1]]⟩ 1 (F.fin 1) rfl (by decide)

/-- C3: a ray whose predicted measurement `ŷ` satisfies `ŷ ≤ 0` is skipped
entirely — the single-ray update returns the volume unchanged, for every
relaxation and every power function — and a solve with matching dimensions
never errors, whatever the data (the skip is a branch, not a failure). -/
theorem mart_ray_skip_nonpositive (powf : F → F → F) (yi : F) (row : List F)
    (lam : F) (vol : List F)
    (h : F.ble (dotF row vol) (F.fin 0) = true) :
    mart_ray powf yi row lam vol = vol
      ∧ ∀ (p : List F) (A : Matrix2) (v : List F),
          p.length = A.rows.length → v.length = A.ncols →
          ∃ out, mart_step powf p A v lam = .ok out := by
  constructor
  · unfold mart_ray
    simp [h]
  · intro p A v hp hv
    exact ⟨_, mart_step_ok powf p A v lam hp hv⟩

/-- C3 witness: an all-zero row (`ŷ = 0`) leaves the volume untouched, and
a concrete well-dimensioned step returns `ok`. -/
theorem mart_ray_skip_nonpositive_witness :
    mart_ray powfSpec (F.fin 3) [F.fin 0] (F.fin 1) [F.fin 5] = [F.fin 5]
      ∧ ∃ out, mart_step powfSpec [F.fin 2] ⟨1, [[F.fin 1]]⟩ [F.fin 7]
          (F.fin 1) = .ok out :=
  ⟨(mart_ray_skip_nonpositive powfSpec (F.fin 3) [F.fin 0] (F.fin 1) [F.fin 5]
      (by simp [dotF])).1,
   (mart_ray_skip_nonpositive powfSpec (F.fin 3) [F.fin 0] (F.fin 1) [F.fin 5]
      (by simp [dotF])).2 [F.fin 2] ⟨1, [[F.fin 1]]⟩ [F.fin 7] rfl rfl⟩

/-- C4: when the predicted measurement is not `≤ 0`, exactly the voxels
with strictly positive weight are multiplied by the single common factor
`(y_i / ŷ)^λ`, and every voxel with zero or negative (or `NaN`) weight
keeps its exact value. -/
theorem mart_ray_positive_update (powf : F → F → F) (yi : F) (row : List F)
    (lam : F) (vol : List F) (hlen : row.length = vol.length)
    (hpos : F.ble (dotF row vol) (F.fin 0) = false) :
    ∀ j, j < vol.length →
    (mart_ray powf yi row lam vol).getD j F.nan
      = if F.blt (F.fin 0) (row.getD j F.nan)
        then F.mul (vol.getD j F.nan) (powf (F.div yi (dotF row vol)) lam)
        else vol.getD j F.nan :=
  fun j hj => mart_ray_getD powf yi row lam vol hlen hpos j hj

/-- C4 witness: `row = [1, 0]`, `vol = [2, 3]`, `y_i = 6`, `λ = 1` —
voxel 0 (positive weight) is multiplied by `(6/2)^1 = 3`, voxel 1 (zero
weight) keeps its value. -/
theorem mart_ray_positive_update_witness :
    ((mart_ray powfSpec (F.fin 6) [F.fin 1, F.fin 0] (F.fin 1)
        [F.fin 2, F.fin 3]).getD 0 F.nan
      = if F.blt (F.fin 0) ([F.fin 1, F.fin 0].getD 0 F.nan)
        then F.mul ([F.fin 2, F.fin 3].getD 0 F.nan)
          (powfSpec (F.div (F.fin 6) (dotF [F.fin 1, F.fin 0] [F.fin 2, F.fin 3]))
            (F.fin 1))
        else [F.fin 2, F.fin 3].getD 0 F.nan)
    ∧ ((mart_ray powfSpec (F.fin 6) [F.fin 1, F.fin 0] (F.fin 1)
        [F.fin 2, F.fin 3]).getD 1 F.nan
      = if F.blt (F.fin 0) ([F.fin 1, F.fin 0].getD 1 F.nan)
        then F.mul ([F.fin 2, F.fin 3].getD 1 F.nan)
          (powfSpec (F.div (F.fin 6) (dotF [F.fin 1, F.fin 0] [F.fin 2, F.fin 3]))
            (F.fin 1))
        else [F.fin 2, F.fin 3].getD 1 F.nan) :=
  ⟨mart_ray_positive_update powfSpec (F.fin 6) [F.fin 1, F.fin 0] (F.fin 1)
      [F.fin 2, F.fin 3] rfl (by simp [dotF]) 0 (by decide),
   mart_ray_positive_update powfSpec (F.fin 6) [F.fin 1, F.fin 0] (F.fin 1)
      [F.fin 2, F.fin 3] rfl (by simp [dotF]) 1 (by decide)⟩

/-- C5: with `n_iters = 0`, `mart_reconstruct` returns the untouched
initial uniform vector of ones of length `N = ncols`, for every
measurement vector, matrix, relaxation and power function (no validity
hypothesis is even needed: no pass runs). -/
theorem mart_reconstruct_zero_iters (powf : F → F → F) (p : List F)
    (A : Matrix2) (lam : F) :
    mart_reconstruct powf p A 0 lam = .ok (List.replicate A.ncols (F.fin 1)) :=
  rfl

/-- C6: with relaxation `λ = 0` the factor of every processed ray is
`(y_i/ŷ)^0 = 1` (an IEEE identity of `powf`, assumed of the power
function), so for every valid input and every `n_iters` the output is the
initial uniform vector of ones. -/
theorem mart_reconstruct_relaxation_zero (powf : F → F → F) (p : List F)
    (A : Matrix2) (n : Nat) (hp : p.length = A.rows.length) (hwf : A.WF)
    (hpow : ∀ x, powf x (F.fin 0) = F.fin 1) :
    mart_reconstruct powf p A n (F.fin 0)
      = .ok (List.replicate A.ncols (F.fin 1)) := by
  unfold mart_reconstruct
  induction n with
  | zero => rfl
  | succ m ih =>
    unfold mart_iter
    rw [mart_step_ok powf p A _ (F.fin 0) hp (List.length_replicate _ _)]
    rw [mart_fold_ones powf A.ncols hpow p A.rows hwf]
    exact ih

/-- C6 witness: `y = [2]`, `A = [[1]]`, two passes with `λ = 0` leave the
volume at the initial ones. -/
theorem mart_reconstruct_relaxation_zero_witness :
    mart_reconstruct powfSpec [F.fin 2] ⟨1, [[F.fin 1]]⟩ 2 (F.fin 0)
      = .ok (List.replicate 1 (F.fin 1)) :=
  mart_reconstruct_relaxation_zero powfSpec [F.fin 2] ⟨1, [[F.fin 1]]⟩ 2
    rfl (by decide) powfSpec_exp_zero

/-- C7: the end-to-end scenario `M=1, N=2`, `A=[[1,1]]`, `y=[4]`,
`n_iters=1`, `λ=1`: starting from `x=[1,1]`, `ŷ=2`, `ratio=2`, `factor=2`,
both voxels weighted, so the result is exactly `[2, 2]`. -/
theorem mart_reconstruct_end_to_end :
    mart_reconstruct powfSpec [F.fin 4] ⟨2, [[F.fin 1, F.fin 1]]⟩ 1 (F.fin 1)
      = .ok [F.fin 2, F.fin 2] := by
  simp [mart_reconstruct, mart_iter, mart_step, mart_ray, dotF, powfSpec]
  norm_num

/-- C8: `mart_reconstruct` is a pure function of its inputs (the embedding
has no ambient state at all): two calls with equal power function,
measurements, matrix, iteration count and relaxation return equal
results. -/
theorem mart_reconstruct_deterministic (powf1 powf2 : F → F → F)
    (p1 p2 : List F) (A1 A2 : Matrix2) (n1 n2 : Nat) (lam1 lam2 : F)
    (hf : powf1 = powf2) (hp : p1 = p2) (hA : A1 = A2) (hn : n1 = n2)
    (hl : lam1 = lam2) :
    mart_reconstruct powf1 p1 A1 n1 lam1
      = mart_reconstruct powf2 p2 A2 n2 lam2 := by
  subst hf; subst hp; subst hA; subst hn; subst hl; rfl

/-- C8 witness: two identical concrete calls agree. -/
theorem mart_reconstruct_deterministic_witness :
    mart_reconstruct powfSpec [F.fin 4] ⟨2, [[F.fin 1, F.fin 1]]⟩ 1 (F.fin 1)
      = mart_reconstruct powfSpec [F.fin 4] ⟨2, [[F.fin 1, F.fin 1]]⟩ 1 (F.fin 1) :=
  mart_reconstruct_deterministic powfSpec powfSpec [F.fin 4] [F.fin 4]
    ⟨2, [[F.fin 1, F.fin 1]]⟩ ⟨2, [[F.fin 1, F.fin 1]]⟩ 1 1 (F.fin 1) (F.fin 1)
    rfl rfl rfl rfl rfl

theorem mart_iter_length (powf : F → F → F) (p : List F) (A : Matrix2)
    (lam : F) (hwf : A.WF) :
    ∀ (k : Nat) (vol v : List F), vol.length = A.ncols →
    mart_iter powf p A lam k vol = .ok v → v.length = A.ncols := by
  intro k
  induction k with
  | zero =>
    intro vol v hv h
    have : vol = v := by simpa [mart_iter] using h
    exact this ▸ hv
  | succ m ih =>
    intro vol v hv h
    unfold mart_iter mart_step at h
    by_cases hp : p.length ≠ A.rows.length
    · simp [hp] at h
    · simp only [not_not] at hp
      have hvol : ¬ vol.length ≠ A.ncols := not_not.mpr hv
      simp only [hp, ne_eq, not_true_eq_false, if_false, hvol] at h
      exact ih _ v (mart_fold_length powf lam A.ncols p A.rows vol hwf hv) h

/-- C9: whenever `mart_reconstruct` returns a volume (no assert fired), the
volume has length exactly `N = ncols` — for every measurement vector,
iteration count and relaxation, including `n_iters = 0` with mismatched
measurement length. -/
theorem mart_reconstruct_output_length (powf : F → F → F) (p : List F)
    (A : Matrix2) (n : Nat) (lam : F) (v : List F) (hwf : A.WF)
    (h : mart_reconstruct powf p A n lam = .ok v) :
    v.length = A.ncols :=
  mart_iter_length powf p A lam hwf n (List.replicate A.ncols (F.fin 1)) v
    (List.length_replicate _ _) h

/-- C9 witness: mismatched measurement length (`M′ = 1` against two rows)
with `n_iters = 0` still yields an output of length `ncols = 3`. -/
theorem mart_reconstruct_output_length_witness :
    (List.replicate 3 (F.fin 1)).length
      = (Matrix2.mk 3 [[F.fin 1, F.fin 0, F.fin 0], [F.fin 0, F.fin 1, F.fin 0]]).ncols :=
  mart_reconstruct_output_length powfSpec [F.fin 5]
    (Matrix2.mk 3 [[F.fin 1, F.fin 0, F.fin 0], [F.fin 0, F.fin 1, F.fin 0]])
    0 (F.fin 1) (List.replicate 3 (F.fin 1)) (by decide) rfl

/-- C10: if a ray's predicted measurement `ŷ` is `NaN`, the skip guard
`ŷ ≤ 0.0` is false (IEEE comparison with `NaN`), so the ray is NOT
skipped, and — since `y_i / NaN = NaN` and `powf NaN λ = NaN` (the IEEE
identity for `λ ≠ 0`, assumed of the power function) — every voxel with
strictly positive weight on the ray becomes `NaN`. -/
theorem mart_ray_nan_not_skipped (powf : F → F → F) (yi : F) (row : List F)
    (lam : F) (vol : List F) (hlen : row.length = vol.length)
    (hnan : dotF row vol = F.nan) (hpow : powf F.nan lam = F.nan) :
    F.ble (dotF row vol) (F.fin 0) = false
      ∧ ∀ j, j < vol.length → F.blt (F.fin 0) (row.getD j F.nan) = true →
        (mart_ray powf yi row lam vol).getD j F.nan = F.nan := by
  have hble : F.ble (dotF row vol) (F.fin 0) = false := by
    rw [hnan]; rfl
  refine ⟨hble, fun j hj hw => ?_⟩
  rw [mart_ray_getD powf yi row lam vol hlen hble j hj, hw]
  simp [hnan, hpow]

/-- C10 witness: `row = [NaN, 1]`, `vol = [1, 1]` gives `ŷ = NaN`; the
guard is false and voxel 1 (positive weight) ends up `NaN`. -/
theorem mart_ray_nan_not_skipped_witness :
    F.ble (dotF [F.nan, F.fin 1] [F.fin 1, F.fin 1]) (F.fin 0) = false
      ∧ (mart_ray powfSpec (F.fin 1) [F.nan, F.fin 1] (F.fin 1)
          [F.fin 1, F.fin 1]).getD 1 F.nan = F.nan :=
  ⟨(mart_ray_nan_not_skipped powfSpec (F.fin 1) [F.nan, F.fin 1] (F.fin 1)
      [F.fin 1, F.fin 1] rfl (by simp [dotF])
      (powfSpec_nan_base (F.fin 1) (by simp))).1,
   (mart_ray_nan_not_skipped powfSpec (F.fin 1) [F.nan, F.fin 1] (F.fin 1)
      [F.fin 1, F.fin 1] rfl (by simp [dotF])
      (powfSpec_nan_base (F.fin 1) (by simp))).2 1 (by decide) (by simp)⟩
